import Mathlib

/-!
Shallow embedding of the document-retrieval engine in
`src/poc_generator/rag_generator.py` (class `ContextFileRAG` and the
record-mode loader), together with proofs about its specification.

Python strings are modelled as `List Char` (`PyStr`), Python dicts with
string keys as association lists, Python `float` as `ℝ`, Python `int` as
`ℤ` (or `ℕ` where the source value is a count).  Real-valued definitions
are `noncomputable` only because `ℝ` has no executable representation;
all string/list-level computation is executable.
-/

/-- Python `str` is modelled as a list of characters. -/
abbrev PyStr := List Char

/-- Tokens are strings. -/
abbrev Tok := List Char

/-- Coercion from a Lean string literal to the `PyStr` model. -/
def pystr (s : String) : PyStr := s.data

/-- Python whitespace characters stripped by `str.strip()` / `str.rstrip()`
with no argument (ASCII part; the corpus involved contains no exotic
Unicode whitespace). -/
def isPySpace (c : Char) : Bool :=
  c = ' ' || c = '\t' || c = '\n' || c = '\r' || c = '\x0b' || c = '\x0c'

/-- Python `s.lstrip(chars)`: drop leading characters belonging to `cs`. -/
def lstripChars (cs : List Char) (s : PyStr) : PyStr :=
  s.dropWhile (fun c => cs.contains c)

/-- Python `s.rstrip()` (strip trailing whitespace). -/
def rstripAll (s : PyStr) : PyStr :=
  (s.reverse.dropWhile isPySpace).reverse

/-- Python `s.strip()` (strip whitespace on both sides). -/
def stripAll (s : PyStr) : PyStr :=
  rstripAll (s.dropWhile isPySpace)

/-- Python `sep.join(parts)`. -/
def joinSep (sep : PyStr) : List PyStr → PyStr
  | [] => []
  | [x] => x
  | x :: y :: rest => x ++ sep ++ joinSep sep (y :: rest)

/-- Python `text.find(pat)`: index of the first occurrence of `pat` in
`text`, or `-1` when there is none. -/
def pyFind (text pat : PyStr) : ℤ :=
  match (List.range (text.length + 1)).find?
      (fun i => (text.drop i).take pat.length == pat) with
  | some i => (i : ℤ)
  | none => -1

/-- Python slice `l[:k]` (the one-argument upper-bound form, including the
negative-index semantics: a negative `k` counts from the end). -/
def pySlice {α : Type} (l : List α) (k : ℤ) : List α :=
  if 0 ≤ k then l.take k.toNat else l.take ((l.length : ℤ) + k).toNat

/-- Python slice `l[i:j]` for nonnegative-or-negative integer bounds. -/
def pySliceIJ {α : Type} (l : List α) (i j : ℤ) : List α :=
  let n : ℤ := l.length
  let i' : ℤ := if i < 0 then max (n + i) 0 else min i n
  let j' : ℤ := if j < 0 then max (n + j) 0 else min j n
  (l.take j'.toNat).drop i'.toNat

/-- Word characters of the Python regex `\w` restricted to the character
ranges occurring in this code base: ASCII alphanumerics, underscore, and
the Cyrillic block (U+0400 to U+04FF). -/
def isWordChar (c : Char) : Bool :=
  c.isAlphanum || c = '_' || (0x400 ≤ c.toNat && c.toNat ≤ 0x4FF)

/-- Python `str.lower()` on the same restricted alphabet: ASCII letters
and the Cyrillic block (А..Я maps to а..я, Ё maps to ё). -/
def pyLower (c : Char) : Char :=
  if 0x410 ≤ c.toNat && c.toNat ≤ 0x42F then Char.ofNat (c.toNat + 0x20)
  else if c.toNat = 0x401 then Char.ofNat 0x451
  else c.toLower

/-- Accumulator-style splitting of a character list into maximal runs of
word characters, dropping empty pieces: the effect of
`[t for t in re.split(r"[^\w]+", s) if t]`. -/
def splitWordsAux : List Char → List Char → List Tok
  | [], acc => if acc.isEmpty then [] else [acc.reverse]
  | c :: rest, acc =>
    if isWordChar c then splitWordsAux rest (c :: acc)
    else if acc.isEmpty then splitWordsAux rest []
    else acc.reverse :: splitWordsAux rest []

/-- `tokenize` from the source: lower-case the text and split on maximal
runs of non-word characters, discarding empty tokens. -/
def tokenize (text : PyStr) : List Tok :=
  splitWordsAux (text.map pyLower) []

/-- The `Chunk` dataclass: a text together with its token list. -/
structure Chunk where
  text : PyStr
  tokens : List Tok
deriving DecidableEq

/-- Sparse vectors: the Python `Dict[str, float]` as an association list
(insertion order preserved, keys unique by construction). -/
abbrev SparseVec := List (Tok × ℝ)

/-- Dictionary lookup `d.get(t)`. -/
def vlookup : SparseVec → Tok → Option ℝ
  | [], _ => none
  | (u, v) :: rest, t => if u = t then some v else vlookup rest t

/-- The keys of a sparse vector, in insertion order. -/
def svKeys (l : SparseVec) : List Tok := l.map Prod.fst

/-- The dot product of `_cosine_sim`: iterate over the items of `a`,
adding `v * b[t]` whenever `t` is also a key of `b`. -/
noncomputable def dot (a b : SparseVec) : ℝ :=
  (a.map (fun p =>
    match vlookup b p.1 with
    | some bv => p.2 * bv
    | none => 0)).sum

/-- Sum of squared values, `sum(v * v for v in a.values())`. -/
noncomputable def norm2 (a : SparseVec) : ℝ :=
  (a.map (fun p => p.2 * p.2)).sum

/-- `ContextFileRAG._cosine_sim`: cosine similarity for sparse
dictionaries, returning `0.0` for empty arguments and zero norms. -/
noncomputable def cosine_sim (a b : SparseVec) : ℝ :=
  if a.isEmpty || b.isEmpty then 0
  else if Real.sqrt (norm2 a) = 0 ∨ Real.sqrt (norm2 b) = 0 then 0
  else dot a b / (Real.sqrt (norm2 a) * Real.sqrt (norm2 b))

/-- One step of building the raw count dictionary of `_tf`:
`tf[t] = tf.get(t, 0) + 1`, preserving dictionary insertion order.
Counts are kept in `ℕ` (the Python floats `1.0, 2.0, ...` are exact). -/
def bump : List (Tok × ℕ) → Tok → List (Tok × ℕ)
  | [], t => [(t, 1)]
  | (u, v) :: rest, t =>
    if u = t then (u, v + 1) :: rest else (u, v) :: bump rest t

/-- The raw count dictionary of `_tf` over a token list. -/
def counts (tokens : List Tok) : List (Tok × ℕ) :=
  tokens.foldl bump []

/-- The normalisation denominator of `_tf`:
`total = sum(tf.values()) or 1.0`. -/
noncomputable def tfDenom (tokens : List Tok) : ℝ :=
  if ((counts tokens).map Prod.snd).sum = 0 then 1
  else (((counts tokens).map Prod.snd).sum : ℝ)

/-- `ContextFileRAG._tf`: term frequencies normalised by length. -/
noncomputable def tf (tokens : List Tok) : SparseVec :=
  (counts tokens).map (fun p => (p.1, (p.2 : ℝ) / tfDenom tokens))

/-- `ContextFileRAG._tfidf_vec`: `{t: tf[t] * idf.get(t, 0.0)}`.  The IDF
dictionary is modelled as a total function that is `0` outside the
dictionary's keys (the effect of `.get(t, 0.0)`). -/
noncomputable def tfidf_vec (idf : Tok → ℝ) (tokens : List Tok) : SparseVec :=
  (tf tokens).map (fun p => (p.1, p.2 * idf p.1))

/-- Document frequency of a token: the number of chunks containing it at
least once (the source increments once per chunk via `set(ch.tokens)`).
This serves both the inline `df` of `_compute_idf` and
`_build_df_local`. -/
def df_count (chunks : List Chunk) (t : Tok) : ℕ :=
  (chunks.filter (fun ch => ch.tokens.contains t)).length

/-- The smoothed IDF formula of `ContextFileRAG._compute_idf`:
`log((N + 1) / (d + 0.5)) + 1.0`. -/
noncomputable def idfBase (N d : ℕ) : ℝ :=
  Real.log (((N : ℝ) + 1) / ((d : ℝ) + 0.5)) + 1

/-- The BM25-style IDF formula of `_compute_idf_local`:
`log((N - d + 0.5) / (d + 0.5) + 1.0)`. -/
noncomputable def idfBM25 (N d : ℕ) : ℝ :=
  Real.log ((((N : ℝ) - (d : ℝ) + 0.5) / ((d : ℝ) + 0.5)) + 1)

/-- `ContextFileRAG._compute_idf` as a total function: tokens outside the
dictionary (document frequency `0`) get the default weight `0.0` that
`_tfidf_vec` supplies via `.get(t, 0.0)`. -/
noncomputable def compute_idf (chunks : List Chunk) : Tok → ℝ := fun t =>
  if df_count chunks t = 0 then 0 else idfBase chunks.length (df_count chunks t)

/-- `_compute_idf_local` as a total function, same convention. -/
noncomputable def compute_idf_local (N : ℕ) (dfFun : Tok → ℕ) : Tok → ℝ := fun t =>
  if dfFun t = 0 then 0 else idfBM25 N (dfFun t)

/-- The scored list built inside `retrieve`: for each chunk index `i` in
order, keep `(i, s)` when the cosine similarity `s` of the query vector
with the chunk vector is strictly positive. -/
noncomputable def scoredOf (idf : Tok → ℝ) (chunks : List Chunk) (query : PyStr) :
    List (ℕ × ℝ) :=
  chunks.enum.filterMap (fun p =>
    if 0 < cosine_sim (tfidf_vec idf (tokenize query)) (tfidf_vec idf p.2.tokens)
    then some (p.1, cosine_sim (tfidf_vec idf (tokenize query)) (tfidf_vec idf p.2.tokens))
    else none)

/-- Stable descending insertion: place `x` after every already-placed
element whose score is greater than or equal to `x`'s. -/
noncomputable def insertDesc (x : ℕ × ℝ) : List (ℕ × ℝ) → List (ℕ × ℝ)
  | [] => [x]
  | y :: ys => if y.2 < x.2 then x :: y :: ys else y :: insertDesc x ys

/-- The effect of `scored.sort(key=lambda x: x[1], reverse=True)`: a
stable sort by descending score.  A stable sort by a key is extensionally
unique, so this left-to-right stable insertion agrees with Python's
sort. -/
noncomputable def sortScored (l : List (ℕ × ℝ)) : List (ℕ × ℝ) :=
  l.foldl (fun acc x => insertDesc x acc) []

/-- A default chunk for the (never reached) out-of-range index access. -/
def emptyChunk : Chunk := ⟨[], []⟩

/-- `ContextFileRAG.retrieve`: score all chunks, stable-sort by
descending score, slice to `top_k` (Python slice semantics), and map
indices back to chunks. -/
noncomputable def retrieve (idf : Tok → ℝ) (chunks : List Chunk)
    (query : PyStr) (top_k : ℤ) : List (Chunk × ℝ) :=
  (pySlice (sortScored (scoredOf idf chunks query)) top_k).map
    (fun p => (chunks.getD p.1 emptyChunk, p.2))

/-- The start marker of `generate_answer`. -/
def markerS : PyStr := pystr "Пример эксплуатации (без вредоносной нагрузки):"

/-- The end markers of `generate_answer`. -/
def endMarkers : List PyStr := [pystr "Примечание:", pystr "Примечания:"]

/-- The fold computing `cut_pos`: the nearest position of any end marker
in `tail`, if one occurs. -/
def minCut (tail : PyStr) (ems : List PyStr) : Option ℕ :=
  ems.foldl (fun acc em =>
    let pos := pyFind tail em
    if pos = -1 then acc
    else
      match acc with
      | none => some pos.toNat
      | some c => some (min c pos.toNat)) none

/-- `extract_after_marker` (local function of `generate_answer`): take
everything after the first start-marker occurrence, strip leading
newline/carriage-return/space characters, truncate at the nearest end
marker (if any) and right-strip the result; return the empty string when
the start marker is absent. -/
def extract_after_marker (text : PyStr) : PyStr :=
  let start := pyFind text markerS
  if start = -1 then []
  else
    let tail := lstripChars [' ', '\n', '\r'] (text.drop (start.toNat + markerS.length))
    match minCut tail endMarkers with
    | some c => rstripAll (tail.take c)
    | none => tail

/-- The debug preview of a chunk: its first 120 characters, with an
ellipsis when truncated. -/
def preview (t : PyStr) : PyStr :=
  t.take 120 ++ (if 120 < t.length then pystr "..." else [])

/-- The context-assembly loop of `generate_answer`: append snippets
separated by a blank line while the budget allows; once the next snippet
would overflow, append its truncation to the remaining capacity (only if
that capacity is positive) and stop. -/
def buildContext (maxc : ℤ) : List PyStr → PyStr → PyStr
  | [], ctx => ctx
  | s :: rest, ctx =>
    if maxc < (ctx.length : ℤ) + (s.length : ℤ) + 2 then
      let remaining : ℤ := maxc - (ctx.length : ℤ) - 2
      if 0 < remaining then ctx ++ s.take remaining.toNat else ctx
    else buildContext maxc rest (ctx ++ s ++ ['\n', '\n'])

/-- The answer record returned by `generate_answer`.  The `debug` field
holds the structured score/preview trace; its JSON serialisation (and the
`return_debug` switch that controls whether it is emitted) is not
modelled, since it is a pure formatting step. -/
structure Answer where
  answer : PyStr
  context : PyStr
  debug : List (ℝ × PyStr)
deriving Inhabited

/-- Fixed message: no relevant context retrieved. -/
def noContextMsg : PyStr := pystr "Не удалось найти релевантный контекст для ответа."

/-- Fixed message: retrieved context has no section after the marker. -/
def noSectionMsg : PyStr :=
  pystr "Контекст найден, но в нём нет секции после требуемого маркера."

/-- Fixed message: extraction produced only whitespace. -/
def emptyExtractMsg : PyStr :=
  pystr "Контекст найден, но не удалось извлечь нужный фрагмент."

/-- The snippet list of `generate_answer`: the nonempty results of
`extract_after_marker` over the retrieved chunks, in ranked order. -/
def snippetsOf (retrieved : List (Chunk × ℝ)) : List PyStr :=
  retrieved.filterMap (fun p =>
    if (extract_after_marker p.1.text).isEmpty then none
    else some (extract_after_marker p.1.text))

/-- The debug trace of `generate_answer`: `(score, preview)` per
retrieved chunk (the source additionally rounds the score to four
decimals and JSON-serialises the list; pure formatting, not modelled). -/
def debugOf (retrieved : List (Chunk × ℝ)) : List (ℝ × PyStr) :=
  retrieved.map (fun p => (p.2, preview p.1.text))

/-- The final answer string of `generate_answer`: the stripped assembled
context, or the fixed fallback message when it strips to nothing. -/
def answerText (snippets : List PyStr) (maxc : ℤ) : PyStr :=
  if (stripAll (buildContext maxc snippets [])).isEmpty then emptyExtractMsg
  else stripAll (buildContext maxc snippets [])

/-- `ContextFileRAG.generate_answer`: retrieve, extract the marked
sections of the retrieved chunks, and concatenate them under the
character budget.  (The source binds the retrieved list, the snippet
list and the answer string once each and reuses them; here those
bindings are named definitions instead of `let`s.) -/
noncomputable def generate_answer (idf : Tok → ℝ) (chunks : List Chunk)
    (question : PyStr) (top_k : ℤ) (max_context_chars : ℤ) : Answer :=
  if (retrieve idf chunks question top_k).isEmpty then ⟨noContextMsg, [], []⟩
  else if (snippetsOf (retrieve idf chunks question top_k)).isEmpty then
    ⟨noSectionMsg, [], debugOf (retrieve idf chunks question top_k)⟩
  else
    ⟨answerText (snippetsOf (retrieve idf chunks question top_k)) max_context_chars,
      answerText (snippetsOf (retrieve idf chunks question top_k)) max_context_chars,
      debugOf (retrieve idf chunks question top_k)⟩

/-- A structured corpus record (one JSON object), with the fields read by
`render_entry_to_text`; absent JSON fields correspond to empty strings
and an empty tag list, exactly the `e.get(..., "")` defaults.  The nested
`vulnerable_code` and `exploit_example` dictionaries are flattened into
prefixed fields. -/
structure Entry where
  cve_id : PyStr
  name : PyStr
  short_description : PyStr
  tags : List PyStr
  vuln_language : PyStr
  vuln_filename : PyStr
  vuln_code : PyStr
  exp_language : PyStr
  exp_filename : PyStr
  exp_code : PyStr
  exp_note : PyStr

/-- The line list assembled by `render_entry_to_text` (the `lines`
local), in the source's fixed field order. -/
def entryLines (e : Entry) : List PyStr := [
  if e.cve_id.isEmpty then [] else pystr "CVE: " ++ e.cve_id,
  if e.name.isEmpty then [] else pystr "Название: " ++ e.name,
  if e.short_description.isEmpty then [] else pystr "Описание: " ++ e.short_description,
  if (joinSep (pystr ", ") e.tags).isEmpty then []
    else pystr "Теги: " ++ joinSep (pystr ", ") e.tags,
  pystr "Уязвимый код:",
  if e.vuln_language.isEmpty then [] else pystr "- Язык: " ++ e.vuln_language,
  if e.vuln_filename.isEmpty then [] else pystr "- Файл: " ++ e.vuln_filename,
  if e.vuln_code.isEmpty then [] else stripAll e.vuln_code,
  markerS,
  if e.exp_language.isEmpty then [] else pystr "- Язык: " ++ e.exp_language,
  if e.exp_filename.isEmpty then [] else pystr "- Файл: " ++ e.exp_filename,
  if e.exp_code.isEmpty then [] else stripAll e.exp_code,
  if e.exp_note.isEmpty then [] else pystr "Примечание: " ++ e.exp_note]

/-- `render_entry_to_text`: unfold one record into a readable text block,
with fixed field order, skipping empty lines. -/
def render_entry_to_text (e : Entry) : PyStr :=
  joinSep ['\n'] ((entryLines e).filter (fun ln => !ln.isEmpty))

/-- `load_chunks_from_json_file` after JSON parsing: one record becomes
exactly one chunk (the file read and `json.loads` step is construction
time I/O, not modelled). -/
def load_chunks_from_json_file (entries : List Entry) : List Chunk :=
  entries.map (fun e =>
    ⟨render_entry_to_text e, tokenize (render_entry_to_text e)⟩)

/-- The IDF function installed by `ContextFileRAG.from_json_file`:
`_compute_idf_local(max(len(chunks), 1), _build_df_local(chunks))`. -/
noncomputable def from_json_file_idf (entries : List Entry) : Tok → ℝ :=
  compute_idf_local (max (load_chunks_from_json_file entries).length 1)
    (df_count (load_chunks_from_json_file entries))

/-- The `while` loop of `_sliding_windows`, in fuel-passing style (the
fuel argument is an upper bound on the iteration count; the loop
terminates because the window start advances by at least one character
per iteration, which `sliding_windows_spec` below makes precise). -/
def windowsLoopAux (text : PyStr) (maxc overlap : ℤ) : ℕ → ℤ → List PyStr
  | 0, _ => []
  | fuel + 1, i =>
    if i < (text.length : ℤ) then
      let j := min (i + maxc) (text.length : ℤ)
      let w := pySliceIJ text i j
      if j = (text.length : ℤ) then [w]
      else w :: windowsLoopAux text maxc overlap fuel (max (j - overlap) (i + 1))
    else []

/-- `ContextFileRAG._sliding_windows`: walk the text in character
windows, then strip each window and drop the empty ones. -/
def sliding_windows (maxc overlap : ℤ) (text : PyStr) : List PyStr :=
  ((windowsLoopAux text maxc overlap (text.length + 1) 0).map stripAll).filter
    (fun s => !s.isEmpty)

/-- Value of a sparse vector at a key, with default `0`. -/
noncomputable def keyFun (l : SparseVec) (t : Tok) : ℝ := (vlookup l t).getD 0

/-- Lookup in the natural-number count dictionary. -/
def nlookup : List (Tok × ℕ) → Tok → Option ℕ
  | [], _ => none
  | (u, v) :: rest, t => if u = t then some v else nlookup rest t

/-- The ranking relation realised by the stable descending sort: either a
strictly larger score, or an equal score and a smaller original index. -/
def rankRel (a b : ℕ × ℝ) : Prop := b.2 < a.2 ∨ (a.2 = b.2 ∧ a.1 < b.1)

/-- An all-empty record: no exploit fields, no note — the rendered chunk
still contains the marker, but nothing follows it. -/
def emptyExploitEntry : Entry :=
  ⟨pystr "CVE-0", [], [], [], [], [], [], [], [], [], []⟩

/-- The single-record corpus of the end-to-end test: a description
containing the query term, an exploit code block, and a note that must be
cut away by the end marker. -/
def heartbleedEntry : Entry :=
  ⟨pystr "CVE-2014-0160", pystr "Heartbleed", pystr "OpenSSL heartbleed bug", [],
    [], [], [], [], [], pystr "EXPLOIT CODE X", pystr "note1"⟩

/-- Spot checks of the tokenizer (spec section 8): hyphen splits,
underscore kept as a word character, case folding, Cyrillic handling. -/
theorem tokenize_spot_checks :
    tokenize (pystr "A-B_c 123") = [pystr "a", pystr "b_c", pystr "123"] ∧
    tokenize (pystr "") = [] ∧
    tokenize (pystr "Привет, мир") = [pystr "привет", pystr "мир"] := by
  refine ⟨by decide, by decide, by decide⟩

theorem vlookup_eq_none (l : SparseVec) (t : Tok) (h : t ∉ svKeys l) :
    vlookup l t = none := by
  induction l with
  | nil => rfl
  | cons p rest ih =>
    obtain ⟨u, v⟩ := p
    simp only [svKeys, List.map_cons, List.mem_cons, not_or] at h
    have hut : u ≠ t := fun e => h.1 e.symm
    simpa [vlookup, hut] using ih h.2

theorem keyFun_eq_zero (l : SparseVec) (t : Tok) (h : t ∉ svKeys l) :
    keyFun l t = 0 := by
  simp [keyFun, vlookup_eq_none l t h]

theorem vlookup_mem {l : SparseVec} {t : Tok} {v : ℝ} (h : vlookup l t = some v) :
    (t, v) ∈ l := by
  induction l with
  | nil => simp [vlookup] at h
  | cons p rest ih =>
    obtain ⟨u, w⟩ := p
    by_cases hut : u = t
    · subst hut
      rw [show vlookup ((u, w) :: rest) u = some w by simp [vlookup]] at h
      rw [List.mem_cons]
      left
      rw [Option.some.injEq] at h
      rw [h]
    · rw [show vlookup ((u, w) :: rest) t = vlookup rest t by simp [vlookup, hut]] at h
      exact List.mem_cons_of_mem _ (ih h)

theorem mem_vlookup {l : SparseVec} {t : Tok} {v : ℝ}
    (hnd : (svKeys l).Nodup) (h : (t, v) ∈ l) : vlookup l t = some v := by
  induction l with
  | nil => simp at h
  | cons p rest ih =>
    obtain ⟨u, w⟩ := p
    simp only [svKeys, List.map_cons, List.nodup_cons] at hnd
    rcases List.mem_cons.mp h with h1 | h1
    · injection h1 with ht hv
      subst ht; subst hv
      simp [vlookup]
    · have hut : u ≠ t := by
        intro hut; subst hut
        exact hnd.1 (List.mem_map.mpr ⟨(u, v), h1, rfl⟩)
      rw [show vlookup ((u, w) :: rest) t = vlookup rest t by simp [vlookup, hut]]
      exact ih hnd.2 h1

theorem vlookup_some_ne_nil {l : SparseVec} {t : Tok} {v : ℝ}
    (h : vlookup l t = some v) : l ≠ [] := by
  intro hnil; subst hnil; simp [vlookup] at h

/-- `dot` as a finite sum over the key set of the first argument. -/
theorem dot_eq_sum (a b : SparseVec) (ha : (svKeys a).Nodup) :
    dot a b = ∑ t ∈ (svKeys a).toFinset, keyFun a t * keyFun b t := by
  induction a with
  | nil => simp [dot, svKeys]
  | cons p rest ih =>
    obtain ⟨u, v⟩ := p
    simp only [svKeys, List.map_cons, List.nodup_cons] at ha
    have hterm : (match vlookup b u with
        | some bv => v * bv
        | none => 0) = keyFun ((u, v) :: rest) u * keyFun b u := by
      have h1 : keyFun ((u, v) :: rest) u = v := by simp [keyFun, vlookup]
      rw [h1]
      cases hb : vlookup b u with
      | none => simp [keyFun, hb]
      | some bv => simp [keyFun, hb]
    have hsum : ∑ t ∈ (svKeys rest).toFinset, keyFun rest t * keyFun b t =
        ∑ t ∈ (svKeys rest).toFinset, keyFun ((u, v) :: rest) t * keyFun b t := by
      refine Finset.sum_congr rfl (fun t ht => ?_)
      have htu : u ≠ t := by
        intro h; subst h
        exact ha.1 (List.mem_toFinset.mp ht)
      simp [keyFun, vlookup, htu]
    have hins : (svKeys ((u, v) :: rest)).toFinset =
        insert u (svKeys rest).toFinset := by
      simp [svKeys]
    have hnotmem : u ∉ (svKeys rest).toFinset :=
      fun hmem => ha.1 (List.mem_toFinset.mp hmem)
    rw [hins, Finset.sum_insert hnotmem]
    simp only [dot, List.map_cons, List.sum_cons]
    rw [hterm, ← hsum, ← ih ha.2]
    rfl

/-- `norm2` as a finite sum over the key set. -/
theorem norm2_eq_sum (a : SparseVec) (ha : (svKeys a).Nodup) :
    norm2 a = ∑ t ∈ (svKeys a).toFinset, keyFun a t * keyFun a t := by
  induction a with
  | nil => simp [norm2, svKeys]
  | cons p rest ih =>
    obtain ⟨u, v⟩ := p
    simp only [svKeys, List.map_cons, List.nodup_cons] at ha
    have hsum : ∑ t ∈ (svKeys rest).toFinset, keyFun rest t * keyFun rest t =
        ∑ t ∈ (svKeys rest).toFinset,
          keyFun ((u, v) :: rest) t * keyFun ((u, v) :: rest) t := by
      refine Finset.sum_congr rfl (fun t ht => ?_)
      have htu : u ≠ t := by
        intro h; subst h
        exact ha.1 (List.mem_toFinset.mp ht)
      simp [keyFun, vlookup, htu]
    have hins : (svKeys ((u, v) :: rest)).toFinset =
        insert u (svKeys rest).toFinset := by
      simp [svKeys]
    have hnotmem : u ∉ (svKeys rest).toFinset :=
      fun hmem => ha.1 (List.mem_toFinset.mp hmem)
    rw [hins, Finset.sum_insert hnotmem]
    simp only [norm2, List.map_cons, List.sum_cons]
    have hu : keyFun ((u, v) :: rest) u = v := by simp [keyFun, vlookup]
    rw [hu, ← hsum, ← ih ha.2]
    rfl

/-- `dot` as a sum over the union of the two key sets. -/
theorem dot_eq_sum_union (a b : SparseVec)
    (ha : (svKeys a).Nodup) :
    dot a b = ∑ t ∈ (svKeys a).toFinset ∪ (svKeys b).toFinset,
      keyFun a t * keyFun b t := by
  rw [dot_eq_sum a b ha]
  refine Finset.sum_subset Finset.subset_union_left (fun t _ hta => ?_)
  rw [keyFun_eq_zero a t (fun hmem => hta (List.mem_toFinset.mpr hmem))]
  ring

/-- `norm2` as a sum over any finite superset of the key set. -/
theorem norm2_eq_sum_superset (a : SparseVec) (s : Finset Tok)
    (ha : (svKeys a).Nodup) (hs : (svKeys a).toFinset ⊆ s) :
    norm2 a = ∑ t ∈ s, keyFun a t * keyFun a t := by
  rw [norm2_eq_sum a ha]
  refine Finset.sum_subset hs (fun t _ hta => ?_)
  rw [keyFun_eq_zero a t (fun hmem => hta (List.mem_toFinset.mpr hmem))]
  ring

/-- The source's one-sided dot product is in fact symmetric (on genuine
dictionaries, whose key lists have no duplicates). -/
theorem dot_comm (a b : SparseVec)
    (ha : (svKeys a).Nodup) (hb : (svKeys b).Nodup) :
    dot a b = dot b a := by
  rw [dot_eq_sum_union a b ha, dot_eq_sum_union b a hb, Finset.union_comm]
  exact Finset.sum_congr rfl (fun t _ => mul_comm _ _)

theorem norm2_nonneg (a : SparseVec) : 0 ≤ norm2 a := by
  refine List.sum_nonneg (fun x hx => ?_)
  obtain ⟨p, _, rfl⟩ := List.mem_map.mp hx
  exact mul_self_nonneg _

theorem norm2_pos_of_mem {a : SparseVec} {t : Tok} {v : ℝ}
    (hm : (t, v) ∈ a) (hv : v ≠ 0) : 0 < norm2 a := by
  induction a with
  | nil => simp at hm
  | cons p rest ih =>
    have hstep : norm2 (p :: rest) = p.2 * p.2 + norm2 rest := by simp [norm2]
    rcases List.mem_cons.mp hm with h1 | h1
    · have h2 : p.2 = v := by rw [← h1]
      rw [hstep, h2]
      have hvv : 0 < v * v := mul_self_pos.mpr hv
      nlinarith [norm2_nonneg rest]
    · rw [hstep]
      nlinarith [ih h1, mul_self_nonneg p.2]

/-- Cauchy-Schwarz for the source's sparse dot product. -/
theorem dot_le_norms (a b : SparseVec)
    (ha : (svKeys a).Nodup) (hb : (svKeys b).Nodup) :
    dot a b ≤ Real.sqrt (norm2 a) * Real.sqrt (norm2 b) := by
  set s := (svKeys a).toFinset ∪ (svKeys b).toFinset with hs
  rw [dot_eq_sum_union a b ha,
    norm2_eq_sum_superset a s ha (by rw [hs]; exact Finset.subset_union_left),
    norm2_eq_sum_superset b s hb (by rw [hs]; exact Finset.subset_union_right)]
  have := Real.sum_mul_le_sqrt_mul_sqrt s (fun t => keyFun a t) (fun t => keyFun b t)
  simpa [pow_two] using this

theorem cosine_sim_le_one (a b : SparseVec)
    (ha : (svKeys a).Nodup) (hb : (svKeys b).Nodup) :
    cosine_sim a b ≤ 1 := by
  unfold cosine_sim
  split
  · exact zero_le_one
  · split
    · exact zero_le_one
    · next hcond =>
      push_neg at hcond
      have hna : 0 < Real.sqrt (norm2 a) :=
        lt_of_le_of_ne (Real.sqrt_nonneg _) (Ne.symm hcond.1)
      have hnb : 0 < Real.sqrt (norm2 b) :=
        lt_of_le_of_ne (Real.sqrt_nonneg _) (Ne.symm hcond.2)
      exact div_le_one_of_le₀ (dot_le_norms a b ha hb) (mul_pos hna hnb).le

theorem cosine_sim_nonneg (a b : SparseVec)
    (hav : ∀ p ∈ a, 0 ≤ p.2) (hbv : ∀ p ∈ b, 0 ≤ p.2) :
    0 ≤ cosine_sim a b := by
  unfold cosine_sim
  split
  · exact le_refl 0
  · split
    · exact le_refl 0
    · have hdot : 0 ≤ dot a b := by
        refine List.sum_nonneg (fun x hx => ?_)
        obtain ⟨p, hp, rfl⟩ := List.mem_map.mp hx
        cases hlk : vlookup b p.1 with
        | none => simp
        | some bv =>
          simp only
          exact mul_nonneg (hav p hp) (hbv (p.1, bv) (vlookup_mem hlk))
      exact div_nonneg hdot
        (mul_nonneg (Real.sqrt_nonneg _) (Real.sqrt_nonneg _))

theorem dot_self_eq_norm2 (a : SparseVec) (ha : (svKeys a).Nodup) :
    dot a a = norm2 a := by
  unfold dot norm2
  refine congrArg List.sum ?_
  refine List.map_congr_left (fun p hp => ?_)
  have : vlookup a p.1 = some p.2 := by
    refine mem_vlookup ha ?_
    obtain ⟨t, v⟩ := p
    exact hp
  rw [this]

theorem cosine_sim_self (a : SparseVec)
    (ha : (svKeys a).Nodup) (hz : norm2 a ≠ 0) :
    cosine_sim a a = 1 := by
  have hpos : 0 < norm2 a := lt_of_le_of_ne (norm2_nonneg a) (Ne.symm hz)
  have hne : ¬a.isEmpty = true := by
    intro hemp
    rw [List.isEmpty_iff.mp hemp] at hz
    exact hz (by simp [norm2])
  have hsq : Real.sqrt (norm2 a) ≠ 0 := (Real.sqrt_pos.mpr hpos).ne'
  unfold cosine_sim
  rw [if_neg (by simp [hne]), if_neg (by push_neg; exact ⟨hsq, hsq⟩)]
  rw [dot_self_eq_norm2 a ha, Real.mul_self_sqrt (norm2_nonneg a)]
  exact div_self hz

theorem cosine_sim_pos (a b : SparseVec)
    (hd : 0 < dot a b) (h2a : 0 < norm2 a) (h2b : 0 < norm2 b) :
    0 < cosine_sim a b ∧
      cosine_sim a b = dot a b / (Real.sqrt (norm2 a) * Real.sqrt (norm2 b)) := by
  have hae : ¬a.isEmpty = true := by
    intro hemp
    rw [List.isEmpty_iff.mp hemp] at h2a
    simp [norm2] at h2a
  have hbe : ¬b.isEmpty = true := by
    intro hemp
    rw [List.isEmpty_iff.mp hemp] at h2b
    simp [norm2] at h2b
  have hna : 0 < Real.sqrt (norm2 a) := Real.sqrt_pos.mpr h2a
  have hnb : 0 < Real.sqrt (norm2 b) := Real.sqrt_pos.mpr h2b
  have heq : cosine_sim a b = dot a b / (Real.sqrt (norm2 a) * Real.sqrt (norm2 b)) := by
    unfold cosine_sim
    rw [if_neg (by simp [hae, hbe]), if_neg (by push_neg; exact ⟨hna.ne', hnb.ne'⟩)]
  exact ⟨heq ▸ div_pos hd (mul_pos hna hnb), heq⟩


theorem bump_nlookup (acc : List (Tok × ℕ)) (x t : Tok) :
    nlookup (bump acc x) t = if x = t
      then some (((nlookup acc t).getD 0) + 1) else nlookup acc t := by
  induction acc with
  | nil =>
    by_cases hxt : x = t <;> simp [bump, nlookup, hxt]
  | cons p rest ih =>
    obtain ⟨u, v⟩ := p
    by_cases hux : u = x
    · subst hux
      by_cases hut : u = t
      · subst hut
        simp [bump, nlookup]
      · simp [bump, nlookup, hut]
    · have hxu : ¬u = x := hux
      by_cases hut : u = t
      · subst hut
        have hxt : x ≠ u := fun e => hux e.symm
        simp [bump, hxu, nlookup, hxt]
      · simp [bump, hxu, nlookup, hut, ih]

theorem counts_foldl_nlookup (toks : List Tok) (acc : List (Tok × ℕ)) (t : Tok) :
    ((nlookup (toks.foldl bump acc) t)).getD 0 =
      ((nlookup acc t).getD 0) + toks.count t := by
  induction toks generalizing acc with
  | nil => simp
  | cons x rest ih =>
    rw [List.foldl_cons, ih (bump acc x), bump_nlookup]
    by_cases hxt : x = t
    · subst hxt
      simp [List.count_cons]
      ring
    · simp [hxt, List.count_cons, Ne.symm hxt]

/-- The count dictionary holds exactly the occurrence counts. -/
theorem counts_nlookup (toks : List Tok) (t : Tok) :
    ((nlookup (counts toks) t)).getD 0 = toks.count t := by
  unfold counts
  rw [counts_foldl_nlookup]
  simp [nlookup]

theorem bump_keys (acc : List (Tok × ℕ)) (t : Tok) :
    (bump acc t).map Prod.fst =
      if t ∈ acc.map Prod.fst then acc.map Prod.fst
      else acc.map Prod.fst ++ [t] := by
  induction acc with
  | nil => simp [bump]
  | cons p rest ih =>
    obtain ⟨u, v⟩ := p
    by_cases hut : u = t
    · subst hut
      simp [bump]
    · have htu : ¬t = u := fun e => hut e.symm
      by_cases hmem : t ∈ rest.map Prod.fst
      · simp [bump, hut, ih, htu, hmem]
      · simp [bump, hut, ih, htu, hmem]

theorem counts_foldl_keys_nodup (toks : List Tok) (acc : List (Tok × ℕ))
    (hacc : (acc.map Prod.fst).Nodup) :
    ((toks.foldl bump acc).map Prod.fst).Nodup := by
  induction toks generalizing acc with
  | nil => simpa using hacc
  | cons x rest ih =>
    rw [List.foldl_cons]
    refine ih (bump acc x) ?_
    rw [bump_keys]
    by_cases hx : x ∈ acc.map Prod.fst
    · simpa [hx] using hacc
    · rw [if_neg hx]
      refine List.Nodup.append hacc (List.nodup_singleton x) ?_
      intro a ha hax
      rw [List.mem_singleton] at hax
      subst hax
      exact hx ha

/-- The count dictionary has no duplicate keys. -/
theorem counts_keys_nodup (toks : List Tok) :
    ((counts toks).map Prod.fst).Nodup :=
  counts_foldl_keys_nodup toks [] (by simp)

theorem vlookup_map_of_nat (l : List (Tok × ℕ)) (f : Tok → ℕ → ℝ) (t : Tok) :
    vlookup (l.map (fun p => (p.1, f p.1 p.2))) t = (nlookup l t).map (f t) := by
  induction l with
  | nil => simp [vlookup, nlookup]
  | cons p rest ih =>
    obtain ⟨u, v⟩ := p
    by_cases hut : u = t
    · subst hut
      simp [vlookup, nlookup]
    · simp [vlookup, nlookup, hut, ih]

theorem tfidf_vec_keys (idf : Tok → ℝ) (toks : List Tok) :
    svKeys (tfidf_vec idf toks) = (counts toks).map Prod.fst := by
  unfold tfidf_vec tf svKeys
  rw [List.map_map, List.map_map]
  exact List.map_congr_left (fun p _ => rfl)

/-- TF-IDF vectors are genuine dictionaries: no duplicate keys. -/
theorem tfidf_vec_keys_nodup (idf : Tok → ℝ) (toks : List Tok) :
    (svKeys (tfidf_vec idf toks)).Nodup := by
  rw [tfidf_vec_keys]
  exact counts_keys_nodup toks

theorem tfDenom_pos (toks : List Tok) : 0 < tfDenom toks := by
  unfold tfDenom
  split
  · exact zero_lt_one
  · next h =>
    exact_mod_cast Nat.pos_of_ne_zero h

/-- Every value of a TF-IDF vector is nonnegative when the IDF weights
are nonnegative. -/
theorem tfidf_vec_value_nonneg (idf : Tok → ℝ) (toks : List Tok)
    (hidf : ∀ t, 0 ≤ idf t) : ∀ p ∈ tfidf_vec idf toks, 0 ≤ p.2 := by
  intro p hp
  unfold tfidf_vec tf at hp
  rw [List.map_map] at hp
  obtain ⟨q, _, rfl⟩ := List.mem_map.mp hp
  exact mul_nonneg (div_nonneg (Nat.cast_nonneg _) (tfDenom_pos toks).le) (hidf _)

/-- Lookup of a token occurring in the token list, through the whole
TF-IDF construction. -/
theorem tfidf_vec_lookup (idf : Tok → ℝ) (toks : List Tok) (t : Tok)
    (ht : t ∈ toks) :
    vlookup (tfidf_vec idf toks) t =
      some (((toks.count t : ℝ) / tfDenom toks) * idf t) := by
  have hc : 0 < toks.count t := List.count_pos_iff.mpr ht
  have hn : nlookup (counts toks) t = some (toks.count t) := by
    have hcn := counts_nlookup toks t
    cases h : nlookup (counts toks) t with
    | none => rw [h] at hcn; simp at hcn; omega
    | some c => rw [h] at hcn; simp at hcn; rw [hcn]
  have h1 : vlookup (tfidf_vec idf toks) t
      = (nlookup (counts toks) t).map
        (fun (c : ℕ) => ((c : ℝ) / tfDenom toks) * idf t) := by
    unfold tfidf_vec tf
    rw [List.map_map]
    exact vlookup_map_of_nat (counts toks)
      (fun u c => ((c : ℝ) / tfDenom toks) * idf u) t
  rw [h1, hn]
  rfl

theorem idfBM25_arg_eq (N d : ℕ) :
    (((N : ℝ) - (d : ℝ) + 0.5) / ((d : ℝ) + 0.5)) + 1 =
      ((N : ℝ) + 1) / ((d : ℝ) + 0.5) := by
  have hd : ((d : ℝ) + 0.5) ≠ 0 := by positivity
  field_simp
  ring

theorem idf_arg_gt_one {N d : ℕ} (hdN : d ≤ N) :
    1 < ((N : ℝ) + 1) / ((d : ℝ) + 0.5) := by
  have hd : (0 : ℝ) < (d : ℝ) + 0.5 := by positivity
  rw [lt_div_iff₀ hd, one_mul]
  have : (d : ℝ) ≤ (N : ℝ) := Nat.cast_le.mpr hdN
  linarith

theorem idfBase_pos {N d : ℕ} (hdN : d ≤ N) : 0 < idfBase N d := by
  unfold idfBase
  have := Real.log_pos (idf_arg_gt_one hdN)
  linarith

theorem idfBM25_pos {N d : ℕ} (hdN : d ≤ N) : 0 < idfBM25 N d := by
  unfold idfBM25
  rw [idfBM25_arg_eq]
  exact Real.log_pos (idf_arg_gt_one hdN)

theorem idf_arg_strict_anti (N : ℕ) {d₁ d₂ : ℕ} (h12 : d₁ < d₂) :
    ((N : ℝ) + 1) / ((d₂ : ℝ) + 0.5) < ((N : ℝ) + 1) / ((d₁ : ℝ) + 0.5) := by
  have h1 : (0 : ℝ) < (d₁ : ℝ) + 0.5 := by positivity
  have hN : (0 : ℝ) < (N : ℝ) + 1 := by positivity
  have hlt : (d₁ : ℝ) + 0.5 < (d₂ : ℝ) + 0.5 := by
    have : (d₁ : ℝ) < (d₂ : ℝ) := Nat.cast_lt.mpr h12
    linarith
  exact div_lt_div_of_pos_left hN h1 hlt

theorem idfBase_strict_anti {N d₁ d₂ : ℕ} (h12 : d₁ < d₂) :
    idfBase N d₂ < idfBase N d₁ := by
  unfold idfBase
  have harg : (0 : ℝ) < ((N : ℝ) + 1) / ((d₂ : ℝ) + 0.5) := by positivity
  have := Real.log_lt_log harg (idf_arg_strict_anti N h12)
  linarith

theorem idfBM25_strict_anti {N d₁ d₂ : ℕ} (h12 : d₁ < d₂) :
    idfBM25 N d₂ < idfBM25 N d₁ := by
  unfold idfBM25
  rw [idfBM25_arg_eq, idfBM25_arg_eq]
  have harg : (0 : ℝ) < ((N : ℝ) + 1) / ((d₂ : ℝ) + 0.5) := by positivity
  exact Real.log_lt_log harg (idf_arg_strict_anti N h12)

theorem df_count_le_length (chunks : List Chunk) (t : Tok) :
    df_count chunks t ≤ chunks.length :=
  List.length_filter_le _ _

/-- The IDF weights installed by `from_json_file` are all nonnegative. -/
theorem from_json_file_idf_nonneg (entries : List Entry) (t : Tok) :
    0 ≤ from_json_file_idf entries t := by
  unfold from_json_file_idf compute_idf_local
  split
  · exact le_refl 0
  · refine (idfBM25_pos ?_).le
    exact le_trans (df_count_le_length _ t) (le_max_left _ _)

/-- The IDF weights of `_compute_idf` are all nonnegative. -/
theorem compute_idf_nonneg (chunks : List Chunk) (t : Tok) :
    0 ≤ compute_idf chunks t := by
  unfold compute_idf
  split
  · exact le_refl 0
  · next h =>
    refine (idfBase_pos ?_).le
    exact df_count_le_length _ t


theorem mem_insertDesc {x y : ℕ × ℝ} {l : List (ℕ × ℝ)} :
    y ∈ insertDesc x l ↔ y = x ∨ y ∈ l := by
  induction l with
  | nil => simp [insertDesc]
  | cons z zs ih =>
    unfold insertDesc
    split
    · simp
    · rw [List.mem_cons, ih, List.mem_cons]
      tauto

theorem insertDesc_pairwise {x : ℕ × ℝ} {l : List (ℕ × ℝ)}
    (h1 : l.Pairwise rankRel) (h2 : ∀ y ∈ l, y.1 < x.1) :
    (insertDesc x l).Pairwise rankRel := by
  induction l with
  | nil => simp [insertDesc]
  | cons y ys ih =>
    rw [List.pairwise_cons] at h1
    unfold insertDesc
    split
    · next hlt =>
      rw [List.pairwise_cons]
      constructor
      · intro z hz
        rcases List.mem_cons.mp hz with hz1 | hz1
        · subst hz1; exact Or.inl hlt
        · rcases h1.1 z hz1 with hc | hc
          · exact Or.inl (hc.trans hlt)
          · exact Or.inl (hc.1 ▸ hlt)
      · rw [List.pairwise_cons]
        exact h1
    · next hge =>
      rw [List.pairwise_cons]
      constructor
      · intro z hz
        rcases mem_insertDesc.mp hz with hz1 | hz1
        · subst hz1
          rcases lt_or_eq_of_le (le_of_not_lt hge) with hc | hc
          · exact Or.inl hc
          · exact Or.inr ⟨hc.symm, h2 y (List.mem_cons_self _ _)⟩
        · exact h1.1 z hz1
      · exact ih h1.2 (fun z hz => h2 z (List.mem_cons_of_mem _ hz))

theorem sortScored_foldl_pairwise (l : List (ℕ × ℝ)) (acc : List (ℕ × ℝ))
    (hacc : acc.Pairwise rankRel)
    (hsep : ∀ y ∈ acc, ∀ x ∈ l, y.1 < x.1)
    (hl : l.Pairwise (fun a b => a.1 < b.1)) :
    (l.foldl (fun acc x => insertDesc x acc) acc).Pairwise rankRel := by
  induction l generalizing acc with
  | nil => simpa using hacc
  | cons x rest ih =>
    rw [List.pairwise_cons] at hl
    rw [List.foldl_cons]
    refine ih (insertDesc x acc)
      (insertDesc_pairwise hacc (fun y hy => hsep y hy x (List.mem_cons_self _ _)))
      (fun y hy z hz => ?_) hl.2
    rcases mem_insertDesc.mp hy with hy1 | hy1
    · subst hy1; exact hl.1 z hz
    · exact hsep y hy1 z (List.mem_cons_of_mem _ hz)

theorem mem_sortScored {y : ℕ × ℝ} {l : List (ℕ × ℝ)}
    (h : y ∈ sortScored l) : y ∈ l := by
  unfold sortScored at h
  suffices hgen : ∀ (l : List (ℕ × ℝ)) (acc : List (ℕ × ℝ)),
      y ∈ l.foldl (fun acc x => insertDesc x acc) acc → y ∈ acc ∨ y ∈ l by
    rcases hgen l [] h with h1 | h1
    · simp at h1
    · exact h1
  intro l
  induction l with
  | nil => intro acc h; exact Or.inl h
  | cons x rest ih =>
    intro acc h
    rw [List.foldl_cons] at h
    rcases ih (insertDesc x acc) h with h1 | h1
    · rcases mem_insertDesc.mp h1 with h2 | h2
      · subst h2; exact Or.inr (List.mem_cons_self _ _)
      · exact Or.inl h2
    · exact Or.inr (List.mem_cons_of_mem _ h1)

theorem enumFrom_fst_lt {α : Type} (l : List α) (n : ℕ) :
    (l.enumFrom n).Pairwise (fun a b => a.1 < b.1) := by
  induction l generalizing n with
  | nil => simp
  | cons x rest ih =>
    rw [List.enumFrom_cons, List.pairwise_cons]
    refine ⟨fun z hz => ?_, ih (n + 1)⟩
    have : n + 1 ≤ z.1 := (List.le_fst_of_mem_enumFrom hz)
    omega

/-- The scored list carries strictly increasing chunk indices. -/
theorem scoredOf_fst_lt (idf : Tok → ℝ) (chunks : List Chunk) (query : PyStr) :
    (scoredOf idf chunks query).Pairwise (fun a b => a.1 < b.1) := by
  unfold scoredOf
  refine List.Pairwise.filterMap _ (fun a b hab => ?_)
    (by simpa [List.enum] using enumFrom_fst_lt chunks 0)
  intro x hx y hy
  split at hx
  · rw [Option.mem_def, Option.some.injEq] at hx
    split at hy
    · rw [Option.mem_def, Option.some.injEq] at hy
      rw [← hx, ← hy]
      exact hab
    · simp at hy
  · simp at hx

/-- Every member of the scored list is a genuine chunk score: strictly
positive, at most one, and the cosine similarity of the query vector with
the chunk's vector. -/
theorem scoredOf_mem_score (idf : Tok → ℝ) (chunks : List Chunk) (query : PyStr)
    {p : ℕ × ℝ} (hp : p ∈ scoredOf idf chunks query) :
    0 < p.2 ∧ p.2 ≤ 1 := by
  unfold scoredOf at hp
  obtain ⟨a, _, ha⟩ := List.mem_filterMap.mp hp
  split at ha
  · next hpos =>
    rw [Option.some.injEq] at ha
    subst ha
    refine ⟨hpos, cosine_sim_le_one _ _ ?_ ?_⟩
    · exact tfidf_vec_keys_nodup idf (tokenize query)
    · exact tfidf_vec_keys_nodup idf a.2.tokens
  · simp at ha

theorem sortScored_pairwise (l : List (ℕ × ℝ))
    (hl : l.Pairwise (fun a b => a.1 < b.1)) :
    (sortScored l).Pairwise rankRel :=
  sortScored_foldl_pairwise l [] (by simp) (by simp) hl

theorem cosine_sim_comm (a b : SparseVec)
    (ha : (svKeys a).Nodup) (hb : (svKeys b).Nodup) :
    cosine_sim a b = cosine_sim b a := by
  unfold cosine_sim
  rw [dot_comm a b ha hb, Bool.or_comm]
  by_cases h1 : (b.isEmpty || a.isEmpty) = true
  · rw [if_pos h1, if_pos h1]
  · rw [if_neg h1, if_neg h1]
    by_cases h2 : Real.sqrt (norm2 a) = 0 ∨ Real.sqrt (norm2 b) = 0
    · rw [if_pos h2, if_pos h2.symm]
    · rw [if_neg h2, if_neg (fun hc => h2 hc.symm),
        mul_comm (Real.sqrt (norm2 a)) (Real.sqrt (norm2 b))]

/-- C5: both IDF formulas of the source — the base scheme
`ln((N + 1) / (d + 0.5)) + 1.0` of `_compute_idf` and the BM25-style
`ln((N - d + 0.5) / (d + 0.5) + 1.0)` of `_compute_idf_local` — give a
strictly positive weight for every chunk count `N ≥ 1` and every document
frequency in `[0, N]`, and at fixed `N` the weight strictly decreases as
the document frequency increases. -/
theorem idf_weights_pos_and_strictly_decreasing (N d₁ d₂ : ℕ) (hN : 1 ≤ N)
    (h1 : d₁ ≤ N) (h2 : d₂ ≤ N) (h12 : d₁ < d₂) :
    (0 < idfBase N d₁ ∧ 0 < idfBase N d₂ ∧
      0 < idfBM25 N d₁ ∧ 0 < idfBM25 N d₂) ∧
    (idfBase N d₂ < idfBase N d₁ ∧ idfBM25 N d₂ < idfBM25 N d₁) :=
  ⟨⟨idfBase_pos h1, idfBase_pos h2, idfBM25_pos h1, idfBM25_pos h2⟩,
    ⟨idfBase_strict_anti h12, idfBM25_strict_anti h12⟩⟩

theorem idf_weights_pos_and_strictly_decreasing_witness :
    (0 < idfBase 2 0 ∧ 0 < idfBase 2 2 ∧ 0 < idfBM25 2 0 ∧ 0 < idfBM25 2 2) ∧
    (idfBase 2 2 < idfBase 2 0 ∧ idfBM25 2 2 < idfBM25 2 0) :=
  idf_weights_pos_and_strictly_decreasing 2 0 2 (by omega) (by omega) (by omega)
    (by omega)

/-- C6: `_cosine_sim` is symmetric on genuine dictionaries (no duplicate
keys), bounded in `[0, 1]` for nonnegative-valued vectors, and equals `1`
on a vector with itself when that vector has nonzero norm. -/
theorem cosine_sim_symm_bounded_self (a b : SparseVec)
    (ha : (svKeys a).Nodup) (hb : (svKeys b).Nodup) :
    cosine_sim a b = cosine_sim b a ∧
    ((∀ p ∈ a, 0 ≤ p.2) → (∀ p ∈ b, 0 ≤ p.2) →
      0 ≤ cosine_sim a b ∧ cosine_sim a b ≤ 1) ∧
    (norm2 a ≠ 0 → cosine_sim a a = 1) :=
  ⟨cosine_sim_comm a b ha hb,
    fun hav hbv => ⟨cosine_sim_nonneg a b hav hbv, cosine_sim_le_one a b ha hb⟩,
    fun hz => cosine_sim_self a ha hz⟩

theorem cosine_sim_symm_bounded_self_witness :
    cosine_sim [(pystr "a", 1)] [(pystr "b", 2)] =
        cosine_sim [(pystr "b", 2)] [(pystr "a", 1)] ∧
    ((∀ p ∈ [(pystr "a", (1 : ℝ))], 0 ≤ p.2) →
      (∀ p ∈ [(pystr "b", (2 : ℝ))], 0 ≤ p.2) →
      0 ≤ cosine_sim [(pystr "a", 1)] [(pystr "b", 2)] ∧
        cosine_sim [(pystr "a", 1)] [(pystr "b", 2)] ≤ 1) ∧
    (norm2 [(pystr "a", (1 : ℝ))] ≠ 0 → cosine_sim [(pystr "a", 1)] [(pystr "a", 1)] = 1) :=
  cosine_sim_symm_bounded_self [(pystr "a", 1)] [(pystr "b", 2)]
    (by simp [svKeys]) (by simp [svKeys])

/-- C8: no division by zero can occur: for an empty token list the
term-frequency denominator is forced to `1` and the vector is empty, and
`_cosine_sim` returns `0.0` outright whenever either argument is an
empty dictionary or has zero norm. -/
theorem vectorization_no_division_by_zero (a b : SparseVec)
    (h : a = [] ∨ b = [] ∨
      Real.sqrt (norm2 a) = 0 ∨ Real.sqrt (norm2 b) = 0) :
    cosine_sim a b = 0 ∧ tf [] = [] ∧ tfDenom [] = 1 := by
  refine ⟨?_, by simp [tf, counts], by simp [tfDenom, counts]⟩
  rcases h with h | h | h | h
  · subst h; simp [cosine_sim]
  · subst h; simp [cosine_sim]
  · unfold cosine_sim
    by_cases he : (a.isEmpty || b.isEmpty) = true
    · rw [if_pos he]
    · rw [if_neg he, if_pos (Or.inl h)]
  · unfold cosine_sim
    by_cases he : (a.isEmpty || b.isEmpty) = true
    · rw [if_pos he]
    · rw [if_neg he, if_pos (Or.inr h)]

theorem vectorization_no_division_by_zero_witness :
    cosine_sim [] [(pystr "a", 1)] = 0 ∧ tf [] = [] ∧ tfDenom [] = 1 :=
  vectorization_no_division_by_zero [] [(pystr "a", 1)] (Or.inl rfl)

/-- C7: for `top_k ≥ 1`, `retrieve` returns at most `top_k` scored
chunks, each score strictly positive and at most `1`, in order of weakly
decreasing score; the underlying sorted index list satisfies the strict
ranking relation (descending score, ties broken by smaller original chunk
index first), and `retrieve` is exactly the mapped `top_k`-prefix of that
sorted list, so the stable tie-break carries over to the output. -/
theorem retrieve_ranked_spec (idf : Tok → ℝ) (chunks : List Chunk)
    (query : PyStr) (top_k : ℤ) (hk : 1 ≤ top_k) :
    ((retrieve idf chunks query top_k).length : ℤ) ≤ top_k ∧
    (∀ p ∈ retrieve idf chunks query top_k, 0 < p.2 ∧ p.2 ≤ 1) ∧
    (retrieve idf chunks query top_k).Pairwise (fun a b => b.2 ≤ a.2) ∧
    (sortScored (scoredOf idf chunks query)).Pairwise rankRel ∧
    retrieve idf chunks query top_k =
      ((sortScored (scoredOf idf chunks query)).take top_k.toNat).map
        (fun p => (chunks.getD p.1 emptyChunk, p.2)) := by
  have hslice : pySlice (sortScored (scoredOf idf chunks query)) top_k =
      (sortScored (scoredOf idf chunks query)).take top_k.toNat := by
    unfold pySlice
    rw [if_pos (by omega)]
  have hret : retrieve idf chunks query top_k =
      ((sortScored (scoredOf idf chunks query)).take top_k.toNat).map
        (fun p => (chunks.getD p.1 emptyChunk, p.2)) := by
    unfold retrieve
    rw [hslice]
  have hpair : (sortScored (scoredOf idf chunks query)).Pairwise rankRel :=
    sortScored_pairwise _ (scoredOf_fst_lt idf chunks query)
  refine ⟨?_, ?_, ?_, hpair, hret⟩
  · rw [hret, List.length_map]
    calc ((List.take top_k.toNat (sortScored (scoredOf idf chunks query))).length : ℤ)
        ≤ (top_k.toNat : ℤ) := by
          exact_mod_cast List.length_take_le _ _
      _ = top_k := Int.toNat_of_nonneg (by omega)
  · intro p hp
    rw [hret] at hp
    obtain ⟨q, hq, rfl⟩ := List.mem_map.mp hp
    have hq2 : q ∈ sortScored (scoredOf idf chunks query) :=
      (List.take_sublist _ _).mem hq
    exact scoredOf_mem_score idf chunks query (mem_sortScored hq2)
  · rw [hret]
    rw [List.pairwise_map]
    refine List.Pairwise.imp ?_ (hpair.sublist (List.take_sublist _ _))
    intro a b hab
    rcases hab with hab | hab
    · exact hab.le
    · exact hab.1.ge

theorem retrieve_ranked_spec_witness :
    ((retrieve (fun _ => 0) [] (pystr "a") 1).length : ℤ) ≤ 1 ∧
    (∀ p ∈ retrieve (fun _ => 0) [] (pystr "a") 1, 0 < p.2 ∧ p.2 ≤ 1) ∧
    (retrieve (fun _ => 0) [] (pystr "a") 1).Pairwise (fun a b => b.2 ≤ a.2) ∧
    (sortScored (scoredOf (fun _ => 0) [] (pystr "a"))).Pairwise rankRel ∧
    retrieve (fun _ => 0) [] (pystr "a") 1 =
      ((sortScored (scoredOf (fun _ => 0) [] (pystr "a"))).take (1 : ℤ).toNat).map
        (fun p => (List.getD [] p.1 emptyChunk, p.2)) :=
  retrieve_ranked_spec (fun _ => 0) [] (pystr "a") 1 (le_refl 1)

/-- C1 (amended): `retrieve` returns the empty sequence whenever
`top_k = 0`, and whenever no chunk has strictly positive cosine
similarity with the query (for any `top_k`, positive or negative);
totality of the definition shows neither case raises.  For strictly
negative `top_k` the source inherits Python's negative-slice semantics
(`scored[:top_k]` drops the last `|top_k|` scored entries), so the
original claim fails there — see the counterexample. -/
theorem retrieve_empty_cases (idf : Tok → ℝ) (chunks : List Chunk)
    (query : PyStr) (top_k : ℤ)
    (h : top_k = 0 ∨ ∀ ch ∈ chunks,
      cosine_sim (tfidf_vec idf (tokenize query)) (tfidf_vec idf ch.tokens) ≤ 0) :
    retrieve idf chunks query top_k = [] := by
  rcases h with h | h
  · subst h
    unfold retrieve pySlice
    simp
  · have hscored : scoredOf idf chunks query = [] := by
      unfold scoredOf
      rw [List.filterMap_eq_nil]
      intro p hp
      have hmem : p.2 ∈ chunks := by
        have := List.enum_map_snd chunks
        exact this ▸ List.mem_map_of_mem Prod.snd hp
      rw [if_neg (not_lt.mpr (h p.2 hmem))]
    unfold retrieve
    rw [hscored]
    have : sortScored [] = [] := rfl
    rw [this]
    unfold pySlice
    split <;> simp

theorem retrieve_empty_cases_witness :
    retrieve (fun _ => 0) [] (pystr "query") 5 = [] :=
  retrieve_empty_cases (fun _ => 0) [] (pystr "query") 5
    (Or.inr (by intro ch hch; simp at hch))

theorem retrieve_nil (idf : Tok → ℝ) (query : PyStr) (top_k : ℤ) :
    retrieve idf [] query top_k = [] := by
  unfold retrieve scoredOf sortScored pySlice
  split <;> simp

/-- C2 (amended): the `context` field equals the `answer` field on the
successful-extraction path (the source assigns both from the same
string); on the two empty-result paths the `context` is the empty string
while the `answer` carries the corresponding fixed message, so the two
fields differ there. -/
theorem generate_answer_context_answer_cases (idf : Tok → ℝ)
    (chunks : List Chunk) (question : PyStr) (top_k maxc : ℤ) :
    (generate_answer idf chunks question top_k maxc).context =
        (generate_answer idf chunks question top_k maxc).answer ∨
      ((generate_answer idf chunks question top_k maxc).context = [] ∧
        ((generate_answer idf chunks question top_k maxc).answer = noContextMsg ∨
          (generate_answer idf chunks question top_k maxc).answer = noSectionMsg)) := by
  unfold generate_answer
  split
  · exact Or.inr ⟨rfl, Or.inl rfl⟩
  · split
    · exact Or.inr ⟨rfl, Or.inr rfl⟩
    · exact Or.inl rfl

/-- C2 counterexample: with an empty corpus, `generate_answer` takes the
no-results path and returns `answer` equal to the fixed message but
`context` equal to the empty string, so the two fields are not equal on
every terminal path, contrary to the claim. -/
theorem generate_answer_context_ne_answer_counterexample :
    (generate_answer (fun _ => 0) [] (pystr "x") 5 1500).context ≠
      (generate_answer (fun _ => 0) [] (pystr "x") 5 1500).answer := by
  unfold generate_answer
  rw [retrieve_nil]
  intro h
  simp only [List.isEmpty_nil, if_pos] at h
  have : ([] : PyStr) = noContextMsg := h
  simp [noContextMsg, pystr] at this

theorem buildContext_length_le (snippets : List PyStr) (maxc : ℤ) (ctx : PyStr)
    (h : (ctx.length : ℤ) ≤ maxc) :
    ((buildContext maxc snippets ctx).length : ℤ) ≤ maxc := by
  induction snippets generalizing ctx with
  | nil => simpa [buildContext] using h
  | cons s rest ih =>
    simp only [buildContext]
    split
    · split
      · rw [List.length_append]
        have htake := List.length_take ((maxc - (ctx.length : ℤ) - 2).toNat) s
        push_cast [htake]
        omega
      · exact h
    · next hfit =>
      refine ih (ctx ++ s ++ ['\n', '\n']) ?_
      push_cast at hfit ⊢
      simp only [List.length_append, List.length_cons, List.length_nil]
      push_cast
      omega

theorem length_rstripAll_le (s : PyStr) : (rstripAll s).length ≤ s.length := by
  unfold rstripAll
  rw [List.length_reverse]
  calc (s.reverse.dropWhile isPySpace).length ≤ s.reverse.length :=
        (List.dropWhile_sublist _).length_le
    _ = s.length := List.length_reverse s

theorem length_stripAll_le (s : PyStr) : (stripAll s).length ≤ s.length := by
  unfold stripAll
  calc (rstripAll (s.dropWhile isPySpace)).length
      ≤ (s.dropWhile isPySpace).length := length_rstripAll_le _
    _ ≤ s.length := (List.dropWhile_sublist _).length_le

theorem dropWhile_append_cons_false (p : Char → Bool) (l₁ : List Char)
    (d : Char) (t : List Char) (hd : p d = false) :
    (l₁ ++ d :: t).dropWhile p = l₁.dropWhile p ++ d :: t := by
  induction l₁ with
  | nil => simp [List.dropWhile_cons, hd]
  | cons c cs ih =>
    by_cases hc : p c = true
    · simp [List.dropWhile_cons, hc, ih]
    · simp [List.dropWhile_cons, hc]

theorem dropWhile_eq_self_of_strip (s : PyStr) (hs : stripAll s = s) :
    s.dropWhile isPySpace = s := by
  have hsub : (s.dropWhile isPySpace).Sublist s := List.dropWhile_sublist _
  refine hsub.eq_of_length ?_
  have h1 : (stripAll s).length ≤ (s.dropWhile isPySpace).length := by
    unfold stripAll
    exact length_rstripAll_le _
  have h2 : (s.dropWhile isPySpace).length ≤ s.length :=
    (List.dropWhile_sublist _).length_le
  rw [hs] at h1
  omega

theorem rstrip_eq_self_of_strip (s : PyStr) (hs : stripAll s = s) :
    s.reverse.dropWhile isPySpace = s.reverse := by
  have hd := dropWhile_eq_self_of_strip s hs
  have : rstripAll s = s := by
    conv_rhs => rw [← hs]
    unfold stripAll
    rw [hd]
  unfold rstripAll at this
  have := congrArg List.reverse this
  rwa [List.reverse_reverse] at this

theorem head_false_of_dropWhile_eq_self {p : Char → Bool} {c : Char}
    {rest : List Char} (h : (c :: rest).dropWhile p = c :: rest) :
    p c = false := by
  by_cases hc : p c = true
  · rw [List.dropWhile_cons, if_pos hc] at h
    have := congrArg List.length h
    have hlen : (rest.dropWhile p).length ≤ rest.length :=
      (List.dropWhile_sublist p).length_le
    simp at this
    omega
  · exact Bool.not_eq_true _ |>.mp hc

/-- Stripping a string that begins and ends with the already-stripped
block `s` keeps `s` as a prefix: `stripAll (s ++ r) = s ++ rstripAll r`. -/
theorem stripAll_append_of_stripped (s r : PyStr) (hne : s ≠ [])
    (hs : stripAll s = s) :
    stripAll (s ++ r) = s ++ rstripAll r := by
  obtain ⟨c, rest, rfl⟩ : ∃ c rest, s = c :: rest := by
    cases s with
    | nil => exact absurd rfl hne
    | cons c rest => exact ⟨c, rest, rfl⟩
  have hdwself := dropWhile_eq_self_of_strip _ hs
  have hheadc : isPySpace c = false := head_false_of_dropWhile_eq_self hdwself
  obtain ⟨d, t', hrev⟩ : ∃ d t', (c :: rest).reverse = d :: t' := by
    cases hr : (c :: rest).reverse with
    | nil =>
      have := congrArg List.length hr
      simp at this
    | cons d t' => exact ⟨d, t', rfl⟩
  have hlastd : isPySpace d = false := by
    have hrd := rstrip_eq_self_of_strip _ hs
    rw [hrev] at hrd
    exact head_false_of_dropWhile_eq_self hrd
  unfold stripAll
  have hdrop : ((c :: rest) ++ r).dropWhile isPySpace = (c :: rest) ++ r := by
    rw [List.cons_append, List.dropWhile_cons, if_neg (by simp [hheadc])]
  rw [hdrop]
  unfold rstripAll
  rw [List.reverse_append, hrev, dropWhile_append_cons_false _ _ _ _ hlastd,
    List.reverse_append, ← hrev, List.reverse_reverse]

/-- C4 (amended): snippets are concatenated in ranked order separated by
a blank line under the hard budget; the assembled context never exceeds
the budget (first conjunct, for the claim's budget of 1000), and for two
600-character spans the answer fits in 1000 characters and starts with
the full first span, provided the first span carries no leading or
trailing whitespace (true of every span cut at an end marker; the
original claim fails without this proviso because the final
`context.strip()` can eat leading whitespace of the first span — see the
counterexample). -/
theorem budget_truncation_spec (s₁ s₂ : PyStr)
    (h1 : s₁.length = 600) (h2 : s₂.length = 600) (hs : stripAll s₁ = s₁) :
    (∀ snippets : List PyStr, ((buildContext 1000 snippets []).length : ℤ) ≤ 1000) ∧
    (answerText [s₁, s₂] 1000).length ≤ 1000 ∧
    (answerText [s₁, s₂] 1000).take 600 = s₁ := by
  have hne : s₁ ≠ [] := by
    intro e
    rw [e] at h1
    simp at h1
  have hctx : buildContext 1000 [s₁, s₂] [] =
      (s₁ ++ ['\n', '\n']) ++ s₂.take 396 := by
    simp only [buildContext, List.nil_append, List.length_append, List.length_nil,
      List.length_cons, h1, h2]
    norm_num
    rw [show (Int.toNat 396) = 396 from rfl]
  have hstrip : stripAll (buildContext 1000 [s₁, s₂] []) =
      s₁ ++ rstripAll (['\n', '\n'] ++ s₂.take 396) := by
    rw [hctx, List.append_assoc]
    exact stripAll_append_of_stripped s₁ _ hne hs
  have hnonempty : ¬(stripAll (buildContext 1000 [s₁, s₂] [])).isEmpty = true := by
    rw [hstrip]
    cases s₁ with
    | nil => exact absurd rfl hne
    | cons c rest => simp
  have hans : answerText [s₁, s₂] 1000 =
      s₁ ++ rstripAll (['\n', '\n'] ++ s₂.take 396) := by
    unfold answerText
    rw [if_neg hnonempty, hstrip]
  refine ⟨fun sn => buildContext_length_le sn 1000 [] (by simp), ?_, ?_⟩
  · rw [hans, List.length_append, h1]
    have hr : (rstripAll (['\n', '\n'] ++ s₂.take 396)).length ≤ 398 := by
      have hb := length_rstripAll_le (['\n', '\n'] ++ s₂.take 396)
      simp only [List.length_append, List.length_take, List.length_cons,
        List.length_nil] at hb
      omega
    omega
  · rw [hans, ← h1, List.take_left]

set_option maxRecDepth 100000 in
/-- C4 counterexample: an extracted span may begin with a tab character
(the extractor only left-strips newline, carriage-return and space), and
then the final `strip()` removes it, so with a first span of 600 tabs the
returned answer does not start with the full first span. -/
theorem budget_truncation_counterexample :
    (answerText [List.replicate 600 '\t', List.replicate 600 'a'] 1000).take 600 ≠
      List.replicate 600 '\t' := by decide

set_option maxRecDepth 100000 in
theorem budget_truncation_spec_witness :
    ((List.replicate 600 'b').length = 600 ∧ (List.replicate 600 'c').length = 600 ∧
      stripAll (List.replicate 600 'b') = List.replicate 600 'b') ∧
    (∀ snippets : List PyStr, ((buildContext 1000 snippets []).length : ℤ) ≤ 1000) ∧
    (answerText [List.replicate 600 'b', List.replicate 600 'c'] 1000).length ≤ 1000 ∧
    (answerText [List.replicate 600 'b', List.replicate 600 'c'] 1000).take 600 =
      List.replicate 600 'b' :=
  ⟨⟨by decide, by decide, by decide⟩,
    budget_truncation_spec (List.replicate 600 'b') (List.replicate 600 'c')
      (by decide) (by decide) (by decide)⟩

theorem windowsLoopAux_congr (text : PyStr) (maxc overlap : ℤ) :
    ∀ (f g : ℕ) (i : ℤ),
      ((text.length : ℤ) - i).toNat ≤ f → ((text.length : ℤ) - i).toNat ≤ g →
      windowsLoopAux text maxc overlap f i = windowsLoopAux text maxc overlap g i := by
  intro f
  induction f with
  | zero =>
    intro g i hf hg
    have hni : ¬i < (text.length : ℤ) := by omega
    cases g with
    | zero => rfl
    | succ g' =>
      simp only [windowsLoopAux]
      rw [if_neg hni]
  | succ f' ih =>
    intro g i hf hg
    by_cases hni : i < (text.length : ℤ)
    · cases g with
      | zero => omega
      | succ g' =>
        simp only [windowsLoopAux]
        rw [if_pos hni, if_pos hni]
        by_cases hj : min (i + maxc) (text.length : ℤ) = (text.length : ℤ)
        · rw [if_pos hj, if_pos hj]
        · rw [if_neg hj, if_neg hj]
          congr 1
          exact ih g' _ (by omega) (by omega)
    · simp only [windowsLoopAux]
      rw [if_neg hni]
      cases g with
      | zero => rfl
      | succ g' =>
        simp only [windowsLoopAux]
        rw [if_neg hni]

/-- C9: the sliding-window loop terminates for every text and every
window/overlap configuration — the result is independent of the fuel
bound once the fuel covers the remaining length, which holds because the
start position advances by at least one character per iteration
(`max (j - overlap) (i + 1) ≥ i + 1`, third conjunct); and the
`max_chunk_chars = 10`, `overlap_chars = 0` run on a 25-character string
yields exactly the three windows that concatenate back to the string. -/
theorem sliding_windows_fuel_and_example (text : PyStr) (maxc overlap : ℤ)
    (f g : ℕ) (i : ℤ)
    (hf : ((text.length : ℤ) - i).toNat ≤ f)
    (hg : ((text.length : ℤ) - i).toNat ≤ g) :
    windowsLoopAux text maxc overlap f i = windowsLoopAux text maxc overlap g i ∧
    (∀ i' j : ℤ, i' + 1 ≤ max (j - overlap) (i' + 1)) ∧
    sliding_windows 10 0 (pystr "abcdefghijklmnopqrstuvwxy") =
      [pystr "abcdefghij", pystr "klmnopqrst", pystr "uvwxy"] ∧
    pystr "abcdefghij" ++ pystr "klmnopqrst" ++ pystr "uvwxy" =
      pystr "abcdefghijklmnopqrstuvwxy" :=
  ⟨windowsLoopAux_congr text maxc overlap f g i hf hg,
    fun _ j => le_max_right (j - overlap) _, by decide, by decide⟩

theorem sliding_windows_fuel_and_example_witness :
    windowsLoopAux (pystr "ab") 1 0 2 0 = windowsLoopAux (pystr "ab") 1 0 3 0 ∧
    (∀ i' j : ℤ, i' + 1 ≤ max (j - 0) (i' + 1)) ∧
    sliding_windows 10 0 (pystr "abcdefghijklmnopqrstuvwxy") =
      [pystr "abcdefghij", pystr "klmnopqrst", pystr "uvwxy"] ∧
    pystr "abcdefghij" ++ pystr "klmnopqrst" ++ pystr "uvwxy" =
      pystr "abcdefghijklmnopqrstuvwxy" :=
  sliding_windows_fuel_and_example (pystr "ab") 1 0 2 3 0 (by decide) (by decide)

theorem joinSep_mem (sep : PyStr) (parts : List PyStr) (x : PyStr)
    (hx : x ∈ parts) :
    ∃ pre suf, joinSep sep parts = pre ++ (x ++ suf) := by
  induction parts with
  | nil => simp at hx
  | cons y rest ih =>
    rcases List.mem_cons.mp hx with h | h
    · subst h
      cases rest with
      | nil => exact ⟨[], [], by simp [joinSep]⟩
      | cons z zs => exact ⟨[], sep ++ joinSep sep (z :: zs), by simp [joinSep]⟩
    · cases rest with
      | nil => simp at h
      | cons z zs =>
        obtain ⟨pre, suf, heq⟩ := ih h
        exact ⟨y ++ sep ++ pre, suf, by simp [joinSep, heq]⟩

theorem pyFind_ne_neg_one_of_match (text pat : PyStr) (i : ℕ)
    (hi : i ≤ text.length) (hm : (text.drop i).take pat.length = pat) :
    pyFind text pat ≠ -1 := by
  unfold pyFind
  cases hfind : (List.range (text.length + 1)).find?
      (fun j => (text.drop j).take pat.length == pat) with
  | some j => simp
  | none =>
    exfalso
    have hnone := List.find?_eq_none.mp hfind i (List.mem_range.mpr (by omega))
    rw [beq_iff_eq] at hnone
    exact hnone hm

theorem render_contains_marker (e : Entry) :
    ∃ pre suf, render_entry_to_text e = pre ++ (markerS ++ suf) := by
  unfold render_entry_to_text
  apply joinSep_mem
  refine List.mem_filter.mpr ⟨?_, by decide⟩
  unfold entryLines
  simp


/-- C10: every chunk built by the record-mode loader contains the start
marker in its text, because `render_entry_to_text` emits the marker line
unconditionally and line joining preserves it as a substring (so
`text.find(marker)` cannot return `-1`); yet for a record with no exploit
fields the span extracted after the marker is empty. -/
theorem record_chunks_contain_marker (entries : List Entry) (ch : Chunk)
    (hch : ch ∈ load_chunks_from_json_file entries) :
    pyFind ch.text markerS ≠ -1 ∧
    extract_after_marker (render_entry_to_text emptyExploitEntry) = [] := by
  refine ⟨?_, by decide⟩
  obtain ⟨e, he, rfl⟩ := List.mem_map.mp hch
  obtain ⟨pre, suf, heq⟩ := render_contains_marker e
  have hmatch : ((render_entry_to_text e).drop pre.length).take markerS.length
      = markerS := by
    rw [heq, List.drop_left, List.take_left]
  have hlen : pre.length ≤ (render_entry_to_text e).length := by
    rw [heq, List.length_append]
    omega
  exact pyFind_ne_neg_one_of_match _ _ pre.length hlen hmatch

theorem record_chunks_contain_marker_witness :
    pyFind (Chunk.mk (render_entry_to_text emptyExploitEntry)
      (tokenize (render_entry_to_text emptyExploitEntry))).text markerS ≠ -1 ∧
    extract_after_marker (render_entry_to_text emptyExploitEntry) = [] :=
  record_chunks_contain_marker [emptyExploitEntry]
    ⟨render_entry_to_text emptyExploitEntry,
      tokenize (render_entry_to_text emptyExploitEntry)⟩
    (by simp [load_chunks_from_json_file])

theorem keyFun_nonneg (a : SparseVec) (h : ∀ p ∈ a, 0 ≤ p.2) (t : Tok) :
    0 ≤ keyFun a t := by
  unfold keyFun
  cases hl : vlookup a t with
  | none => simp
  | some v =>
    simpa using h (t, v) (vlookup_mem hl)

theorem dot_pos_of_common_key (a b : SparseVec) (t : Tok) {va vb : ℝ}
    (hla : vlookup a t = some va) (hlb : vlookup b t = some vb)
    (hva : 0 < va) (hvb : 0 < vb) (hand : (svKeys a).Nodup)
    (hann : ∀ p ∈ a, 0 ≤ p.2) (hbnn : ∀ p ∈ b, 0 ≤ p.2) :
    0 < dot a b := by
  rw [dot_eq_sum a b hand]
  refine Finset.sum_pos' (fun u _ => mul_nonneg (keyFun_nonneg a hann u)
    (keyFun_nonneg b hbnn u)) ⟨t, ?_, ?_⟩
  · refine List.mem_toFinset.mpr ?_
    exact List.mem_map.mpr ⟨(t, va), vlookup_mem hla, rfl⟩
  · have h1 : keyFun a t = va := by simp [keyFun, hla]
    have h2 : keyFun b t = vb := by simp [keyFun, hlb]
    rw [h1, h2]
    exact mul_pos hva hvb

/-- When a token occurs in both the query and a chunk and carries a
strictly positive IDF weight (all weights nonnegative), the cosine
similarity of the two TF-IDF vectors is strictly positive. -/
theorem cosine_sim_tfidf_pos (idf : Tok → ℝ) (qtoks ctoks : List Tok) (t : Tok)
    (hqt : t ∈ qtoks) (hct : t ∈ ctoks) (hpos : 0 < idf t)
    (hnn : ∀ u, 0 ≤ idf u) :
    0 < cosine_sim (tfidf_vec idf qtoks) (tfidf_vec idf ctoks) := by
  have hql := tfidf_vec_lookup idf qtoks t hqt
  have hcl := tfidf_vec_lookup idf ctoks t hct
  have hvq : 0 < ((qtoks.count t : ℝ) / tfDenom qtoks) * idf t :=
    mul_pos (div_pos (by exact_mod_cast List.count_pos_iff.mpr hqt)
      (tfDenom_pos _)) hpos
  have hvc : 0 < ((ctoks.count t : ℝ) / tfDenom ctoks) * idf t :=
    mul_pos (div_pos (by exact_mod_cast List.count_pos_iff.mpr hct)
      (tfDenom_pos _)) hpos
  have hdot : 0 < dot (tfidf_vec idf qtoks) (tfidf_vec idf ctoks) :=
    dot_pos_of_common_key _ _ t hql hcl hvq hvc
      (tfidf_vec_keys_nodup idf qtoks)
      (tfidf_vec_value_nonneg idf qtoks hnn)
      (tfidf_vec_value_nonneg idf ctoks hnn)
  have h2q : 0 < norm2 (tfidf_vec idf qtoks) :=
    norm2_pos_of_mem (vlookup_mem hql) hvq.ne'
  have h2c : 0 < norm2 (tfidf_vec idf ctoks) :=
    norm2_pos_of_mem (vlookup_mem hcl) hvc.ne'
  exact (cosine_sim_pos _ _ hdot h2q h2c).1


set_option maxRecDepth 100000 in
/-- C3: on a corpus of exactly one record whose rendered chunk contains
the start marker followed by the exploit text and the note line, querying
a term of the record's description with `top_k = 1` and
`max_context_chars = 1000` returns exactly the exploit text: the span
after the first marker occurrence, leading newlines stripped, truncated
at the end marker, trailing whitespace stripped — the note excluded. -/
theorem end_to_end_single_record_extraction :
    (generate_answer (from_json_file_idf [heartbleedEntry])
      (load_chunks_from_json_file [heartbleedEntry])
      (pystr "heartbleed") 1 1000).answer = pystr "EXPLOIT CODE X" := by
  have hchunks : load_chunks_from_json_file [heartbleedEntry] =
      [Chunk.mk (render_entry_to_text heartbleedEntry)
        (tokenize (render_entry_to_text heartbleedEntry))] := rfl
  have hdf : df_count (load_chunks_from_json_file [heartbleedEntry])
      (pystr "heartbleed") = 1 := by decide
  have hidfpos : 0 < from_json_file_idf [heartbleedEntry] (pystr "heartbleed") := by
    unfold from_json_file_idf compute_idf_local
    rw [hdf]
    rw [if_neg (by norm_num)]
    refine idfBM25_pos ?_
    rw [show max (load_chunks_from_json_file [heartbleedEntry]).length 1 = 1 from by decide]
  have hidfnn : ∀ u, 0 ≤ from_json_file_idf [heartbleedEntry] u :=
    from_json_file_idf_nonneg [heartbleedEntry]
  have hq : pystr "heartbleed" ∈ tokenize (pystr "heartbleed") := by decide
  have hc : pystr "heartbleed" ∈ tokenize (render_entry_to_text heartbleedEntry) := by
    decide
  have hs : 0 < cosine_sim
      (tfidf_vec (from_json_file_idf [heartbleedEntry]) (tokenize (pystr "heartbleed")))
      (tfidf_vec (from_json_file_idf [heartbleedEntry])
        (tokenize (render_entry_to_text heartbleedEntry))) :=
    cosine_sim_tfidf_pos _ _ _ _ hq hc hidfpos hidfnn
  have hscored : scoredOf (from_json_file_idf [heartbleedEntry])
      (load_chunks_from_json_file [heartbleedEntry]) (pystr "heartbleed") =
      [(0, cosine_sim
        (tfidf_vec (from_json_file_idf [heartbleedEntry]) (tokenize (pystr "heartbleed")))
        (tfidf_vec (from_json_file_idf [heartbleedEntry])
          (tokenize (render_entry_to_text heartbleedEntry))))] := by
    unfold scoredOf
    rw [hchunks]
    simp only [List.enum, List.enumFrom, List.filterMap_cons, List.filterMap_nil]
    rw [if_pos hs]
  have hret : retrieve (from_json_file_idf [heartbleedEntry])
      (load_chunks_from_json_file [heartbleedEntry]) (pystr "heartbleed") 1 =
      [(Chunk.mk (render_entry_to_text heartbleedEntry)
          (tokenize (render_entry_to_text heartbleedEntry)),
        cosine_sim
          (tfidf_vec (from_json_file_idf [heartbleedEntry]) (tokenize (pystr "heartbleed")))
          (tfidf_vec (from_json_file_idf [heartbleedEntry])
            (tokenize (render_entry_to_text heartbleedEntry))))] := by
    unfold retrieve
    rw [hscored, hchunks]
    rw [show pySlice (sortScored [((0 : ℕ), cosine_sim
        (tfidf_vec (from_json_file_idf [heartbleedEntry]) (tokenize (pystr "heartbleed")))
        (tfidf_vec (from_json_file_idf [heartbleedEntry])
          (tokenize (render_entry_to_text heartbleedEntry))))]) 1 =
      [((0 : ℕ), cosine_sim
        (tfidf_vec (from_json_file_idf [heartbleedEntry]) (tokenize (pystr "heartbleed")))
        (tfidf_vec (from_json_file_idf [heartbleedEntry])
          (tokenize (render_entry_to_text heartbleedEntry))))] from by
      simp [sortScored, insertDesc, pySlice]]
    simp [List.getD]
  have hex : extract_after_marker (render_entry_to_text heartbleedEntry) =
      pystr "EXPLOIT CODE X" := by decide
  unfold generate_answer
  rw [hret]
  rw [if_neg (by simp)]
  have hsnip : snippetsOf [(Chunk.mk (render_entry_to_text heartbleedEntry)
      (tokenize (render_entry_to_text heartbleedEntry)),
      cosine_sim
        (tfidf_vec (from_json_file_idf [heartbleedEntry]) (tokenize (pystr "heartbleed")))
        (tfidf_vec (from_json_file_idf [heartbleedEntry])
          (tokenize (render_entry_to_text heartbleedEntry))))] =
      [pystr "EXPLOIT CODE X"] := by
    simp only [snippetsOf, List.filterMap_cons, List.filterMap_nil]
    rw [hex]
    rw [if_neg (by decide)]
  rw [hsnip]
  rw [if_neg (by decide)]
  show answerText [pystr "EXPLOIT CODE X"] 1000 = pystr "EXPLOIT CODE X"
  decide

set_option maxRecDepth 100000 in
/-- C1 counterexample: `top_k = -1 ≤ 0`, yet on a corpus of two records
that both score positively for the query, `retrieve` returns a nonempty
result — `scored[:top_k]` with a negative `top_k` keeps all but the last
`|top_k|` entries under Python slice semantics, so the claim "empty
whenever `top_k ≤ 0`" fails on the code. -/
theorem retrieve_negative_top_k_counterexample :
    retrieve (from_json_file_idf [heartbleedEntry, heartbleedEntry])
      (load_chunks_from_json_file [heartbleedEntry, heartbleedEntry])
      (pystr "heartbleed") (-1) ≠ [] := by
  have hchunks : load_chunks_from_json_file [heartbleedEntry, heartbleedEntry] =
      [Chunk.mk (render_entry_to_text heartbleedEntry)
        (tokenize (render_entry_to_text heartbleedEntry)),
       Chunk.mk (render_entry_to_text heartbleedEntry)
        (tokenize (render_entry_to_text heartbleedEntry))] := rfl
  have hdf : df_count (load_chunks_from_json_file [heartbleedEntry, heartbleedEntry])
      (pystr "heartbleed") = 2 := by decide
  have hidfpos : 0 < from_json_file_idf [heartbleedEntry, heartbleedEntry]
      (pystr "heartbleed") := by
    unfold from_json_file_idf compute_idf_local
    rw [hdf]
    rw [if_neg (by norm_num)]
    refine idfBM25_pos ?_
    rw [show max (load_chunks_from_json_file
      [heartbleedEntry, heartbleedEntry]).length 1 = 2 from by decide]
  have hidfnn : ∀ u, 0 ≤ from_json_file_idf [heartbleedEntry, heartbleedEntry] u :=
    from_json_file_idf_nonneg [heartbleedEntry, heartbleedEntry]
  have hq : pystr "heartbleed" ∈ tokenize (pystr "heartbleed") := by decide
  have hc : pystr "heartbleed" ∈ tokenize (render_entry_to_text heartbleedEntry) := by
    decide
  have hs : 0 < cosine_sim
      (tfidf_vec (from_json_file_idf [heartbleedEntry, heartbleedEntry])
        (tokenize (pystr "heartbleed")))
      (tfidf_vec (from_json_file_idf [heartbleedEntry, heartbleedEntry])
        (tokenize (render_entry_to_text heartbleedEntry))) :=
    cosine_sim_tfidf_pos _ _ _ _ hq hc hidfpos hidfnn
  have hscored : scoredOf (from_json_file_idf [heartbleedEntry, heartbleedEntry])
      (load_chunks_from_json_file [heartbleedEntry, heartbleedEntry])
      (pystr "heartbleed") =
      [(0, cosine_sim
        (tfidf_vec (from_json_file_idf [heartbleedEntry, heartbleedEntry])
          (tokenize (pystr "heartbleed")))
        (tfidf_vec (from_json_file_idf [heartbleedEntry, heartbleedEntry])
          (tokenize (render_entry_to_text heartbleedEntry)))),
       (1, cosine_sim
        (tfidf_vec (from_json_file_idf [heartbleedEntry, heartbleedEntry])
          (tokenize (pystr "heartbleed")))
        (tfidf_vec (from_json_file_idf [heartbleedEntry, heartbleedEntry])
          (tokenize (render_entry_to_text heartbleedEntry))))] := by
    unfold scoredOf
    rw [hchunks]
    simp only [List.enum, List.enumFrom, List.filterMap_cons, List.filterMap_nil]
    rw [if_pos hs, if_pos hs]
  unfold retrieve
  rw [hscored]
  rw [show sortScored [(0, cosine_sim
        (tfidf_vec (from_json_file_idf [heartbleedEntry, heartbleedEntry])
          (tokenize (pystr "heartbleed")))
        (tfidf_vec (from_json_file_idf [heartbleedEntry, heartbleedEntry])
          (tokenize (render_entry_to_text heartbleedEntry)))),
       (1, cosine_sim
        (tfidf_vec (from_json_file_idf [heartbleedEntry, heartbleedEntry])
          (tokenize (pystr "heartbleed")))
        (tfidf_vec (from_json_file_idf [heartbleedEntry, heartbleedEntry])
          (tokenize (render_entry_to_text heartbleedEntry))))] =
      [(0, cosine_sim
        (tfidf_vec (from_json_file_idf [heartbleedEntry, heartbleedEntry])
          (tokenize (pystr "heartbleed")))
        (tfidf_vec (from_json_file_idf [heartbleedEntry, heartbleedEntry])
          (tokenize (render_entry_to_text heartbleedEntry)))),
       (1, cosine_sim
        (tfidf_vec (from_json_file_idf [heartbleedEntry, heartbleedEntry])
          (tokenize (pystr "heartbleed")))
        (tfidf_vec (from_json_file_idf [heartbleedEntry, heartbleedEntry])
          (tokenize (render_entry_to_text heartbleedEntry))))] from by
    simp [sortScored, insertDesc]]
  unfold pySlice
  rw [if_neg (by norm_num)]
  simp
